import Mathlib

/-!
Verification of the core semantics of the `bitflags` crate.

The development shallowly embeds the crate's flags model:

* a *flag table* is an ordered list of entries, each a name paired with a bit
  pattern (`Flag` below, embedding the `(&'static str, Self)` entries of
  `FLAGS` in `src/traits.rs` and the `Flag` entries used by `src/iter.rs`);
* a *flags value* is represented by its raw bit pattern, a natural number;
  a `w`-bit storage type holds patterns below `2 ^ w`;
* Rust strings are modelled as lists of characters;
* the bitwise NOT of the storage type (`!x` in Rust) is modelled as XOR with
  the all-ones mask `2 ^ w - 1` (`wnot` below).

Signed storage types are modelled by their two's-complement bit pattern; the
only place signedness is observable in the embedded code is the numeric range
accepted by `from_str_radix` in the text parser, recorded in `StorageSpec`.
-/

namespace Bitflags

/-- One entry of a flag table: a name together with the entry's bit pattern.
Embeds the `(&'static str, Self)` pairs of `BitFlags::FLAGS` in
`src/traits.rs` (accessed as `flag.name()` / `flag.value().bits()` by
`src/iter.rs`). -/
structure Flag where
  name : List Char
  value : Nat
deriving DecidableEq

/-- The bitwise NOT of a `w`-bit storage value: Rust's `!x`, i.e. XOR with the
all-ones value `2 ^ w - 1`. -/
def wnot (w x : Nat) : Nat := (2 ^ w - 1) ^^^ x

/-- Embeds `BitFlags::contains` (src/traits.rs lines 114-120):
`self.bits() & other.bits() == other.bits()`. -/
def contains (self other : Nat) : Bool := self &&& other == other

/-- Embeds `BitFlags::is_empty` (src/traits.rs lines 94-97):
`self.bits() == Self::Bits::EMPTY`. -/
def is_empty (x : Nat) : Bool := x == 0

/-- Embeds `BitFlags::remove` (src/traits.rs lines 130-136) on a `w`-bit
storage type: `self.bits() & !other.bits()`. -/
def remove (w self other : Nat) : Nat := self &&& wnot w other

/-- Embeds `BitFlags::from_bits_truncate` (src/traits.rs lines 57-71, same
algorithm as `$InternalBitFlags::from_bits_truncate` in src/internal.rs lines
216-231): return `EMPTY` for `EMPTY` input, otherwise OR together the bits of
every table entry all of whose bits are present in the input. -/
def from_bits_truncate (table : List Flag) (bits : Nat) : Nat :=
  if bits = 0 then 0
  else
    List.foldl
      (fun truncated f =>
        if bits &&& f.value = f.value then truncated ||| f.value else truncated)
      0 table

/-- Embeds `BitFlags::from_bits` (src/traits.rs lines 41-49, same algorithm as
src/internal.rs lines 205-213): `Some` exactly when truncation is lossless. -/
def from_bits (table : List Flag) (bits : Nat) : Option Nat :=
  if from_bits_truncate table bits = bits then some bits else none

/-- Embeds `$InternalBitFlags::all` (src/internal.rs lines 190-192):
`from_bits_truncate(Bits::ALL)` where `ALL` is the all-ones value of the
`w`-bit storage type.  The public flags type generated by the macro delegates
its `all` to this definition (src/public.rs lines 64-66 and 379-381). -/
def all (table : List Flag) (w : Nat) : Nat :=
  from_bits_truncate table (2 ^ w - 1)

/-- Embeds `BitFlags::complement` (src/traits.rs lines 210-212, same as
src/internal.rs lines 334-338): `from_bits_truncate(!self.bits())`. -/
def complement (table : List Flag) (w x : Nat) : Nat :=
  from_bits_truncate table (wnot w x)

/-- Embeds `BitFlags::from_name` (src/traits.rs lines 78-86): the first table
entry whose name matches exactly. -/
def from_name (table : List Flag) (name : List Char) : Option Nat :=
  match table with
  | [] => none
  | f :: rest => if f.name = name then some f.value else from_name rest name

/-- The OR of every table entry's bits, in table order (the "derived all
value" of the specification, used to state properties about `all`). -/
def flags_union (table : List Flag) : Nat :=
  List.foldl (fun acc f => acc ||| f.value) 0 table

/-! ### Iteration engine (src/iter.rs, src/internal.rs lines 353-436) -/

/-- Embeds the loop of `Iterator::next` for `IterNames` (src/iter.rs lines
100-133): scan the table in declaration order, stopping as soon as the
remaining `state` is empty; for each entry whose bits are all contained in the
original `source`, yield `(name, bits)` and remove the entry's bits from
`state`.  Returns the full yielded sequence together with the final `state`
(the iterator's `remaining()`). -/
def iter_names_aux (w source : Nat) : List Flag → Nat → List (List Char × Nat) × Nat
  | [], state => ([], state)
  | f :: rest, state =>
    if state = 0 then ([], state)
    else if contains source f.value then
      ((f.name, f.value) :: (iter_names_aux w source rest (remove w state f.value)).1,
        (iter_names_aux w source rest (remove w state f.value)).2)
    else iter_names_aux w source rest state

/-- The items yielded by `IterNames::new(x)` over a `w`-bit flags type with
the given table (src/iter.rs lines 69-77 initialise both `source` and `state`
to `x`). -/
def iter_names (w : Nat) (table : List Flag) (x : Nat) : List (List Char × Nat) :=
  (iter_names_aux w x table x).1

/-- The iterator's final `remaining()` value (src/iter.rs lines 95-97). -/
def iter_remaining (w : Nat) (table : List Flag) (x : Nat) : Nat :=
  (iter_names_aux w x table x).2

/-- Embeds `Iterator::next` for `Iter` (src/iter.rs lines 34-55): the bit
patterns of the named matches, followed by one final leftover item carrying
`remaining()` when that is non-empty. -/
def iter (w : Nat) (table : List Flag) (x : Nat) : List Nat :=
  (iter_names w table x).map Prod.snd ++
    (if is_empty (iter_remaining w table x) then [] else [iter_remaining w table x])

/-! ### Text codec (src/fmt.rs, src/parser.rs) -/

/-- Whitespace as stripped by `str::trim`.  Rust uses the Unicode
`White_Space` property; the characters relevant to the flags grammar are the
ASCII ones modelled here. -/
def is_whitespace (c : Char) : Bool :=
  (c == ' ') || (c == '\t') || (c == '\n') || (c == '\r')

/-- Embeds `str::trim`: drop whitespace from both ends. -/
def trim (s : List Char) : List Char :=
  ((s.dropWhile is_whitespace).reverse.dropWhile is_whitespace).reverse

/-- Embeds `str::split('|')`: split at every pipe, keeping empty pieces (the
empty string yields one empty piece). -/
def splitOnPipe : List Char → List (List Char)
  | [] => [[]]
  | c :: rest =>
    if c = '|' then [] :: splitOnPipe rest
    else
      match splitOnPipe rest with
      | [] => [[c]]
      | t :: ts => (c :: t) :: ts

/-- The lowercase hex digit for a value below 16. -/
def hexDigitChar (d : Nat) : Char :=
  match d with
  | 0 => '0' | 1 => '1' | 2 => '2' | 3 => '3' | 4 => '4' | 5 => '5'
  | 6 => '6' | 7 => '7' | 8 => '8' | 9 => '9' | 10 => 'a' | 11 => 'b'
  | 12 => 'c' | 13 => 'd' | 14 => 'e' | 15 => 'f' | _ => '0'

/-- Fuelled digit expansion for `LowerHex` (the fuel is an upper bound on the
number of digits; `hexChars` supplies a sufficient amount). -/
def hexCharsAux : Nat → Nat → List Char
  | 0, _ => []
  | fuel + 1, n =>
    if n < 16 then [hexDigitChar n]
    else hexCharsAux fuel (n / 16) ++ [hexDigitChar (n % 16)]

/-- The minimal lowercase hex digit string of `n` (so `0` renders as `0`). -/
def hexChars (n : Nat) : List Char := hexCharsAux (n + 1) n

/-- Embeds `write!(writer, "{:#x}", bits)`: `0x` followed by the lowercase
hex digits of the stored bit pattern (Rust's `LowerHex` prints the
two's-complement pattern also for signed storage). -/
def hexFormat (n : Nat) : List Char := '0' :: 'x' :: hexChars n

/-- Embeds `to_writer` (src/fmt.rs lines 13-48): the yielded names joined by
`" | "`, then, if the iterator's `remaining()` is non-empty, a final
`" | "`-separated hex item for it. -/
def to_writer (table : List Flag) (w x : Nat) : List Char :=
  List.intercalate [' ', '|', ' '] ((iter_names w table x).map Prod.fst) ++
    (if iter_remaining w table x = 0 then []
     else (if (iter_names w table x).map Prod.fst = [] then [] else [' ', '|', ' ']) ++
       hexFormat (iter_remaining w table x))

/-- The storage type of a flags type, as seen by the text codec: its bit
width and whether it is a signed integer type.  Signedness decides the
numeric range accepted by `from_str_radix` (src/traits.rs lines 249-259
implement `FromHex` via `from_str_radix` for both the unsigned and the signed
standard integer types). -/
structure StorageSpec where
  w : Nat
  signed : Bool

/-- Embeds `char::to_digit(16)`. -/
def to_digit16 (c : Char) : Option Nat :=
  if '0' ≤ c ∧ c ≤ '9' then some (c.toNat - '0'.toNat)
  else if 'a' ≤ c ∧ c ≤ 'f' then some (c.toNat - 'a'.toNat + 10)
  else if 'A' ≤ c ∧ c ≤ 'F' then some (c.toNat - 'A'.toNat + 10)
  else none

/-- The digit-accumulation loop of `from_str_radix` at radix 16, at full
precision (the width check happens afterwards, see `from_str_radix16`). -/
def hexVal : List Char → Nat → Option Nat
  | [], acc => some acc
  | c :: rest, acc => (to_digit16 c).bind fun d => hexVal rest (acc * 16 + d)

/-- The largest numeric value `from_str_radix` accepts without overflow for a
non-negative literal: `MAX` of the storage type. -/
def radix_pos_max (sp : StorageSpec) : Nat :=
  if sp.signed then 2 ^ (sp.w - 1) - 1 else 2 ^ sp.w - 1

/-- A sign-less digit run parsed by `from_str_radix`: at least one digit, all
hex digits, and the value at most the storage type's `MAX` (checked
multiply/add in Rust; equivalent to a final bound check since the accumulated
value is monotone). -/
def radix_parse_pos (sp : StorageSpec) (digits : List Char) : Option Nat :=
  if digits = [] then none
  else (hexVal digits 0).bind fun v =>
    if v ≤ radix_pos_max sp then some v else none

/-- A `-`-signed digit run parsed by `from_str_radix` on a signed storage
type: value at most `2 ^ (w - 1)`, returned as its two's-complement bit
pattern. -/
def radix_parse_neg (sp : StorageSpec) (digits : List Char) : Option Nat :=
  if digits = [] then none
  else (hexVal digits 0).bind fun v =>
    if v ≤ 2 ^ (sp.w - 1) then some ((2 ^ sp.w - v) % 2 ^ sp.w) else none

/-- Embeds `from_str_radix(input, 16)` of the core library for the storage
type described by `sp`, returning the accepted value's bit pattern (`none`
collapses Rust's empty/invalid-digit/overflow error kinds, which the crate
maps to one parse error anyway).  A leading `-` is only meaningful for signed
storage; for unsigned storage it is an invalid digit. -/
def from_str_radix16 (sp : StorageSpec) : List Char → Option Nat
  | [] => none
  | '+' :: digits => radix_parse_pos sp digits
  | '-' :: digits => if sp.signed then radix_parse_neg sp digits else none
  | s => radix_parse_pos sp s

/-- The parse errors of src/parser.rs lines 89-105 (`got` payloads kept as
the offending text). -/
inductive ParseError where
  | emptyFlag : ParseError
  | invalidNamedFlag : List Char → ParseError
  | invalidHexFlag : List Char → ParseError
deriving DecidableEq

deriving instance DecidableEq for Except

/-- The body of the token loop of `from_str` (src/parser.rs lines 51-74):
trim the token, reject an empty token, parse a `0x`-prefixed token as hex via
`from_bits_retain`, and look any other token up by name. -/
def parse_token (table : List Flag) (sp : StorageSpec) (tok : List Char) :
    Except ParseError Nat :=
  if trim tok = [] then .error .emptyFlag
  else
    match trim tok with
    | '0' :: 'x' :: digits =>
      match from_str_radix16 sp digits with
      | some bits => .ok bits
      | none => .error (.invalidHexFlag digits)
    | other =>
      match from_name table other with
      | some b => .ok b
      | none => .error (.invalidNamedFlag other)

/-- The token loop of `from_str`: OR each parsed token into the accumulator,
returning the first error encountered. -/
def from_str_go (table : List Flag) (sp : StorageSpec) (acc : Nat) :
    List (List Char) → Except ParseError Nat
  | [] => .ok acc
  | t :: ts =>
    match parse_token table sp t with
    | .error e => .error e
    | .ok v => from_str_go table sp (acc ||| v) ts

/-- Embeds `from_str` (src/parser.rs lines 38-77): trim the input, return
`empty()` for empty input, otherwise split on `|` and fold the tokens. -/
def from_str (table : List Flag) (sp : StorageSpec) (input : List Char) :
    Except ParseError Nat :=
  if trim input = [] then .ok 0
  else from_str_go table sp 0 (splitOnPipe (trim input))

/-! ### Concrete flag tables used by witnesses and counterexamples -/

/-- The table `{A = 1, B = 2, C = 4}` over `u8` from the specification's
examples (also `TestFlags` in src/src/tests.rs, without its composite). -/
def tableABC : List Flag := [⟨['A'], 1⟩, ⟨['B'], 2⟩, ⟨['C'], 4⟩]

/-- A table with the single multi-bit entry `AB = 0b11`. -/
def tableAB3 : List Flag := [⟨['A', 'B'], 3⟩]

/-- A table with two entries sharing the same bit pattern (aliases). -/
def tableAlias : List Flag := [⟨['C'], 4⟩, ⟨['C', 'C'], 4⟩]

/-- The table `{A = 1}` of the complement-truncation example. -/
def tableA : List Flag := [⟨['A'], 1⟩]

/-- A table declaring a single zero-valued entry (`TestZero` in
src/src/tests.rs). -/
def tableZero : List Flag := [⟨['Z', 'E', 'R', 'O'], 0⟩]

/-- The `u8` storage type. -/
def u8spec : StorageSpec := ⟨8, false⟩

/-- The `i8` storage type. -/
def i8spec : StorageSpec := ⟨8, true⟩

/-- A list of characters that survives the flags grammar as one token:
non-empty, with no pipe and no whitespace characters. -/
def valid_part (p : List Char) : Prop :=
  p ≠ [] ∧ ∀ c ∈ p, is_whitespace c = false ∧ c ≠ '|'

/-- The shape of a flag name as declared through the macro (a Rust
identifier): a valid token that moreover does not start with `0x`, so the
parser's hex branch never captures it. -/
def valid_name (n : List Char) : Prop :=
  valid_part n ∧ n.take 2 ≠ ['0', 'x']

instance (p : List Char) : Decidable (valid_part p) :=
  decidable_of_iff (p ≠ [] ∧ ∀ c ∈ p, is_whitespace c = false ∧ c ≠ '|') Iff.rfl

instance (n : List Char) : Decidable (valid_name n) :=
  decidable_of_iff (valid_part n ∧ n.take 2 ≠ ['0', 'x']) Iff.rfl

/-! ### Proof devices -/

/-- OR-fold of a per-entry contribution over a table: the common shape of the
entry folds in `from_bits_truncate` and `flags_union`. -/
def ormap (d : Flag → Nat) (l : List Flag) : Nat :=
  l.foldl (fun acc f => acc ||| d f) 0

/-- The per-entry contribution of `from_bits_truncate`: the entry's bits when
they are all present in the input, nothing otherwise. -/
def trunc_d (bits : Nat) (f : Flag) : Nat :=
  if bits &&& f.value = f.value then f.value else 0

/-- OR-fold of a list of bit patterns, starting from the empty value. -/
def orList (l : List Nat) : Nat := l.foldl (· ||| ·) 0

/-! ### Bit-manipulation toolkit -/

theorem testBit_high {w x i : Nat} (hx : x < 2 ^ w) (hi : w ≤ i) :
    x.testBit i = false :=
  Nat.testBit_lt_two_pow
    (lt_of_lt_of_le hx (Nat.pow_le_pow_right (by norm_num) hi))

theorem land_eq_left_iff {a b : Nat} :
    a &&& b = a ↔ ∀ i, a.testBit i = true → b.testBit i = true := by
  constructor
  · intro h i hi
    have h2 := congrArg (Nat.testBit · i) h
    simp only [Nat.testBit_land] at h2
    rw [hi] at h2
    simpa using h2
  · intro h
    apply Nat.eq_of_testBit_eq
    intro i
    simp only [Nat.testBit_land]
    cases ha : a.testBit i
    · simp
    · simp [h i ha]

theorem sub_trans {a b c : Nat} (h1 : a &&& b = a) (h2 : b &&& c = b) :
    a &&& c = a := by
  rw [land_eq_left_iff] at h1 h2 ⊢
  exact fun i hi => h2 i (h1 i hi)

theorem sub_lor_left (a b : Nat) : a &&& (a ||| b) = a := by
  rw [land_eq_left_iff]
  intro i hi
  simp [Nat.testBit_lor, hi]

theorem sub_lor_right (a b : Nat) : b &&& (a ||| b) = b := by
  rw [land_eq_left_iff]
  intro i hi
  simp [Nat.testBit_lor, hi]

theorem lor_sub {a b c : Nat} (h1 : a &&& c = a) (h2 : b &&& c = b) :
    (a ||| b) &&& c = a ||| b := by
  rw [land_eq_left_iff] at h1 h2 ⊢
  intro i hi
  rw [Nat.testBit_lor] at hi
  cases ha : a.testBit i
  · cases hb : b.testBit i
    · rw [ha, hb] at hi; simp at hi
    · exact h2 i hb
  · exact h1 i ha

theorem lor_eq_right_of_sub {a b : Nat} (h : a &&& b = a) : a ||| b = b := by
  rw [land_eq_left_iff] at h
  apply Nat.eq_of_testBit_eq
  intro i
  rw [Nat.testBit_lor]
  cases ha : a.testBit i
  · simp
  · simp [h i ha]

theorem lor_remove {w y s : Nat} (hs : s < 2 ^ w) :
    y ||| remove w s y = y ||| s := by
  apply Nat.eq_of_testBit_eq
  intro i
  simp only [remove, wnot, Nat.testBit_lor, Nat.testBit_land, Nat.testBit_xor,
    Nat.testBit_two_pow_sub_one]
  by_cases hi : i < w
  · simp only [hi, decide_True]
    cases y.testBit i <;> cases s.testBit i <;> rfl
  · rw [testBit_high hs (le_of_not_lt hi)]
    cases y.testBit i <;> rfl

theorem remove_le (w s y : Nat) : remove w s y ≤ s := Nat.and_le_left

theorem remove_lt_two_pow {w s : Nat} (y : Nat) (hs : s < 2 ^ w) :
    remove w s y < 2 ^ w :=
  lt_of_le_of_lt (remove_le w s y) hs

theorem foldl_lor_shift (l : List Nat) (a : Nat) :
    l.foldl (· ||| ·) a = a ||| l.foldl (· ||| ·) 0 := by
  induction l generalizing a with
  | nil => simp [List.foldl]
  | cons x l ih =>
    simp only [List.foldl]
    rw [ih (a ||| x), ih (0 ||| x), Nat.zero_or, Nat.lor_assoc]

theorem orList_cons (a : Nat) (l : List Nat) :
    orList (a :: l) = a ||| orList l := by
  simp only [orList, List.foldl]
  rw [foldl_lor_shift, Nat.zero_or]

theorem orList_sub {c : Nat} : ∀ {l : List Nat},
    (∀ a ∈ l, a &&& c = a) → orList l &&& c = orList l := by
  intro l
  induction l with
  | nil => intro _; exact Nat.zero_and c
  | cons a l ih =>
    intro h
    rw [orList_cons]
    exact lor_sub (h a (by simp)) (ih fun b hb => h b (by simp [hb]))

theorem ormap_foldl (d : Flag → Nat) (l : List Flag) (a : Nat) :
    l.foldl (fun acc f => acc ||| d f) a = a ||| ormap d l := by
  induction l generalizing a with
  | nil => simp [ormap, List.foldl]
  | cons f l ih =>
    simp only [ormap, List.foldl] at ih ⊢
    rw [ih (a ||| d f), ih (0 ||| d f), Nat.zero_or, Nat.lor_assoc]

theorem ormap_cons (d : Flag → Nat) (f : Flag) (l : List Flag) :
    ormap d (f :: l) = d f ||| ormap d l := by
  simp only [ormap, List.foldl]
  rw [ormap_foldl, Nat.zero_or]
  rfl

theorem ormap_sub {d : Flag → Nat} {c : Nat} : ∀ {l : List Flag},
    (∀ f ∈ l, d f &&& c = d f) → ormap d l &&& c = ormap d l := by
  intro l
  induction l with
  | nil => intro _; exact Nat.zero_and c
  | cons f l ih =>
    intro h
    rw [ormap_cons]
    exact lor_sub (h f (by simp)) (ih fun g hg => h g (by simp [hg]))

theorem mem_sub_ormap {d : Flag → Nat} {f : Flag} : ∀ {l : List Flag},
    f ∈ l → d f &&& ormap d l = d f := by
  intro l
  induction l with
  | nil => intro h; cases h
  | cons g l ih =>
    intro h
    rw [ormap_cons]
    rcases List.mem_cons.mp h with h | h
    · subst h; exact sub_lor_left _ _
    · exact sub_trans (ih h) (sub_lor_right _ _)

theorem ormap_congr {d₁ d₂ : Flag → Nat} : ∀ {l : List Flag},
    (∀ f ∈ l, d₁ f = d₂ f) → ormap d₁ l = ormap d₂ l := by
  intro l
  induction l with
  | nil => intro _; rfl
  | cons f l ih =>
    intro h
    rw [ormap_cons, ormap_cons, h f (by simp), ih fun g hg => h g (by simp [hg])]

theorem ormap_zero : ∀ (l : List Flag), ormap (fun _ => 0) l = 0 := by
  intro l
  induction l with
  | nil => rfl
  | cons f l ih => rw [ormap_cons, ih]; exact Nat.zero_or 0

/-! ### Lemmas about `from_bits_truncate`, `all` and `flags_union` -/

theorem flags_union_eq_ormap (table : List Flag) :
    flags_union table = ormap (fun f => f.value) table := rfl

theorem truncate_eq_ormap {bits : Nat} (table : List Flag) (h : bits ≠ 0) :
    from_bits_truncate table bits = ormap (trunc_d bits) table := by
  have hstep :
      (fun (truncated : Nat) (f : Flag) =>
          if bits &&& f.value = f.value then truncated ||| f.value else truncated) =
        fun acc f => acc ||| trunc_d bits f := by
    funext a f
    by_cases hc : bits &&& f.value = f.value <;> simp [trunc_d, hc]
  rw [from_bits_truncate, if_neg h, hstep]
  rfl

theorem truncate_zero (table : List Flag) : from_bits_truncate table 0 = 0 := by
  rw [from_bits_truncate, if_pos rfl]

theorem truncate_sub (table : List Flag) (bits : Nat) :
    from_bits_truncate table bits &&& bits = from_bits_truncate table bits := by
  by_cases h : bits = 0
  · subst h; rw [truncate_zero]; exact Nat.zero_and 0
  · rw [truncate_eq_ormap table h]
    apply ormap_sub
    intro f _
    by_cases hc : bits &&& f.value = f.value
    · rw [trunc_d, if_pos hc, Nat.land_comm]
      exact hc
    · rw [trunc_d, if_neg hc]
      exact Nat.zero_and bits

theorem truncate_sub_union (table : List Flag) (bits : Nat) :
    from_bits_truncate table bits &&& flags_union table =
      from_bits_truncate table bits := by
  by_cases h : bits = 0
  · subst h; rw [truncate_zero]; exact Nat.zero_and _
  · rw [truncate_eq_ormap table h]
    apply ormap_sub
    intro f hf
    by_cases hc : bits &&& f.value = f.value
    · rw [trunc_d, if_pos hc, flags_union_eq_ormap]
      exact mem_sub_ormap hf
    · rw [trunc_d, if_neg hc]
      exact Nat.zero_and _

theorem mem_sub_truncate {table : List Flag} {f : Flag} {bits : Nat}
    (hf : f ∈ table) (hc : bits &&& f.value = f.value) (hb : bits ≠ 0) :
    f.value &&& from_bits_truncate table bits = f.value := by
  rw [truncate_eq_ormap table hb]
  have h : trunc_d bits f &&& ormap (trunc_d bits) table = trunc_d bits f :=
    mem_sub_ormap hf
  rwa [trunc_d, if_pos hc] at h

theorem land_self_eq (a : Nat) : a &&& a = a := by
  apply Nat.eq_of_testBit_eq
  intro i
  rw [Nat.testBit_land, Bool.and_self]

theorem land_mask_of_lt {w v : Nat} (h : v < 2 ^ w) : (2 ^ w - 1) &&& v = v := by
  apply Nat.eq_of_testBit_eq
  intro i
  rw [Nat.testBit_land, Nat.testBit_two_pow_sub_one]
  by_cases hi : i < w
  · simp [hi]
  · rw [testBit_high h (le_of_not_lt hi)]
    simp

theorem all_eq_flags_union {table : List Flag} {w : Nat}
    (h : ∀ f ∈ table, f.value < 2 ^ w) :
    all table w = flags_union table := by
  by_cases hm : (2 ^ w - 1 : Nat) = 0
  · have hw : ∀ f ∈ table, f.value = 0 := by
      intro f hf
      have h1 := h f hf
      have h2 : (2 ^ w : Nat) = 1 := by
        have := Nat.pos_pow_of_pos w (show 0 < 2 by norm_num)
        omega
      omega
    have hw2 : ∀ f ∈ table, (fun g : Flag => g.value) f = (fun _ : Flag => (0 : Nat)) f :=
      hw
    rw [all, hm, truncate_zero, flags_union_eq_ormap, ormap_congr hw2, ormap_zero]
  · rw [all, truncate_eq_ormap table hm, flags_union_eq_ormap]
    apply ormap_congr
    intro f hf
    rw [trunc_d, if_pos (land_mask_of_lt (h f hf))]

/-! ### Claim theorems: conversions and algebra -/

/-- C4: for every flags type, `all()` (src/internal.rs lines 190-192,
delegated to by the generated public type, src/public.rs lines 64-66) has as
its bits the OR of every table entry's bits in table order, and in particular
sets no bit outside the union of the declared entries' patterns. -/
theorem all_is_or_of_entries (table : List Flag) (w : Nat)
    (h : ∀ f ∈ table, f.value < 2 ^ w) :
    all table w = flags_union table ∧
      all table w &&& flags_union table = all table w := by
  refine ⟨all_eq_flags_union h, ?_⟩
  rw [all_eq_flags_union h]
  exact land_self_eq _

theorem all_is_or_of_entries_witness :
    all tableABC 8 = flags_union tableABC ∧
      all tableABC 8 &&& flags_union tableABC = all tableABC 8 :=
  all_is_or_of_entries tableABC 8 (by decide)

/-- C5 (amended): `from_bits(b)` is `Some` exactly when truncation of `b` is
lossless (`from_bits_truncate(b).bits() == b`, src/traits.rs lines 41-49);
`Some` still implies that `b` has no bits outside `all().bits()`, but that
containment alone is not sufficient when a multi-bit entry is only partially
present. -/
theorem from_bits_iff_truncate_lossless (table : List Flag) (b : Nat) :
    ((from_bits table b).isSome = true ↔ from_bits_truncate table b = b) ∧
      (∀ w, (∀ f ∈ table, f.value < 2 ^ w) → (from_bits table b).isSome = true →
        b &&& all table w = b) := by
  have hiff : (from_bits table b).isSome = true ↔ from_bits_truncate table b = b := by
    rw [from_bits]
    by_cases h : from_bits_truncate table b = b <;> simp [h]
  refine ⟨hiff, ?_⟩
  intro w hw hsome
  have ht := hiff.mp hsome
  have hsub := truncate_sub_union table b
  rw [ht] at hsub
  rw [all_eq_flags_union hw]
  exact hsub

theorem from_bits_iff_truncate_lossless_witness :
    ((from_bits tableABC 3).isSome = true ↔ from_bits_truncate tableABC 3 = 3) ∧
      (3 : Nat) &&& all tableABC 8 = 3 :=
  ⟨(from_bits_iff_truncate_lossless tableABC 3).1,
    (from_bits_iff_truncate_lossless tableABC 3).2 8 (by decide) (by decide)⟩

/-- C5 counterexample: over the table with the single multi-bit entry
`AB = 0b11`, the bits `0b01` lie inside `all().bits()` yet `from_bits`
rejects them, refuting "`Some` exactly when `b` has no bits outside
`all().bits()`". -/
theorem from_bits_not_all_containment :
    (1 : Nat) &&& all tableAB3 8 = 1 ∧ from_bits tableAB3 1 = none := by
  decide

/-- C6: `complement()` is `from_bits_truncate` applied to the bitwise NOT of
the value (src/traits.rs lines 210-212), hence never sets a bit outside the
union of the declared entries' patterns (unknown bits are dropped, not
inverted); with the single declared flag `A = 1` over `u8` storage,
`from_bits_retain(0b10).complement()` has bits `0b01`. -/
theorem complement_truncates :
    (∀ (table : List Flag) (w x : Nat),
        complement table w x = from_bits_truncate table (wnot w x)) ∧
      (∀ (table : List Flag) (w x : Nat),
        complement table w x &&& flags_union table = complement table w x) ∧
      complement tableA 8 2 = 1 := by
  refine ⟨fun _ _ _ => rfl, fun table w x => ?_, by decide⟩
  exact truncate_sub_union table (wnot w x)

/-- C7: `from_bits_truncate` (src/traits.rs lines 57-71) is idempotent. -/
theorem from_bits_truncate_idempotent (table : List Flag) (b : Nat) :
    from_bits_truncate table (from_bits_truncate table b) =
      from_bits_truncate table b := by
  by_cases hb : b = 0
  · subst hb; rw [truncate_zero, truncate_zero]
  · by_cases ht : from_bits_truncate table b = 0
    · rw [ht, truncate_zero]
    · have heq := truncate_eq_ormap table hb
      rw [truncate_eq_ormap table ht, truncate_eq_ormap table hb]
      apply ormap_congr
      intro f hf
      have hcond : (from_bits_truncate table b &&& f.value = f.value) ↔
          (b &&& f.value = f.value) := by
        constructor
        · intro h
          have hTb : from_bits_truncate table b &&& b = from_bits_truncate table b :=
            truncate_sub table b
          have h1 : f.value &&& from_bits_truncate table b = f.value := by
            rw [Nat.land_comm] at h; exact h
          have h2 := sub_trans h1 hTb
          rw [Nat.land_comm] at h2
          exact h2
        · intro h
          have h1 := mem_sub_truncate hf h hb
          rw [Nat.land_comm] at h1
          exact h1
      rw [heq] at hcond
      by_cases hc : b &&& f.value = f.value
      · rw [trunc_d, trunc_d, if_pos hc, if_pos (hcond.mpr hc)]
      · rw [trunc_d, trunc_d, if_neg hc, if_neg (fun h => hc (hcond.mp h))]

/-- C8: a zero-valued declared entry is contained in every value, is itself
empty, and `is_empty` holds exactly for raw bits `EMPTY`
(src/traits.rs lines 94-97 and 114-120). -/
theorem zero_flag_contains_paradox (table : List Flag) (e : Flag)
    (_he : e ∈ table) (hz : e.value = 0) (x : Nat) :
    contains x e.value = true ∧ is_empty e.value = true ∧
      (∀ y : Nat, is_empty y = true ↔ y = 0) := by
  refine ⟨?_, ?_, ?_⟩
  · simp [contains, hz, Nat.and_zero]
  · simp [is_empty, hz]
  · intro y; simp [is_empty]

theorem zero_flag_contains_paradox_witness :
    contains 5 (Flag.mk ['Z', 'E', 'R', 'O'] 0).value = true ∧
      is_empty (Flag.mk ['Z', 'E', 'R', 'O'] 0).value = true ∧
      (∀ y : Nat, is_empty y = true ↔ y = 0) :=
  zero_flag_contains_paradox tableZero (Flag.mk ['Z', 'E', 'R', 'O'] 0)
    (by decide) rfl 5

/-! ### Lemmas about the iteration engine -/

theorem contains_iff {a b : Nat} : contains a b = true ↔ a &&& b = b := by
  simp [contains]

theorem iter_aux_zero (w src : Nat) (l : List Flag) :
    iter_names_aux w src l 0 = ([], 0) := by
  cases l with
  | nil => rfl
  | cons f rest => simp [iter_names_aux]

theorem iter_aux_or (w src : Nat) : ∀ (l : List Flag) (state : Nat),
    state < 2 ^ w →
    orList ((iter_names_aux w src l state).1.map Prod.snd) |||
        (iter_names_aux w src l state).2 =
      orList ((iter_names_aux w src l state).1.map Prod.snd) ||| state := by
  intro l
  induction l with
  | nil => intro state _; rfl
  | cons f l ih =>
    intro state hstate
    by_cases hs : state = 0
    · subst hs; rw [iter_aux_zero]
    · by_cases hc : contains src f.value = true
      · rw [iter_names_aux, if_neg hs, if_pos hc]
        simp only [List.map_cons]
        rw [orList_cons]
        have hR := ih (remove w state f.value) (remove_lt_two_pow f.value hstate)
        calc
          (f.value ||| orList ((iter_names_aux w src l (remove w state f.value)).1.map Prod.snd)) |||
              (iter_names_aux w src l (remove w state f.value)).2
            = f.value ||| (orList ((iter_names_aux w src l (remove w state f.value)).1.map Prod.snd) |||
                (iter_names_aux w src l (remove w state f.value)).2) := Nat.lor_assoc _ _ _
          _ = f.value ||| (orList ((iter_names_aux w src l (remove w state f.value)).1.map Prod.snd) |||
                remove w state f.value) := by rw [hR]
          _ = f.value ||| (remove w state f.value |||
                orList ((iter_names_aux w src l (remove w state f.value)).1.map Prod.snd)) := by
                rw [Nat.lor_comm (orList _) (remove w state f.value)]
          _ = (f.value ||| remove w state f.value) |||
                orList ((iter_names_aux w src l (remove w state f.value)).1.map Prod.snd) :=
                (Nat.lor_assoc _ _ _).symm
          _ = (f.value ||| state) |||
                orList ((iter_names_aux w src l (remove w state f.value)).1.map Prod.snd) := by
                rw [lor_remove hstate]
          _ = f.value ||| (state |||
                orList ((iter_names_aux w src l (remove w state f.value)).1.map Prod.snd)) :=
                Nat.lor_assoc _ _ _
          _ = f.value ||| (orList ((iter_names_aux w src l (remove w state f.value)).1.map Prod.snd) |||
                state) := by rw [Nat.lor_comm state (orList _)]
          _ = (f.value ||| orList ((iter_names_aux w src l (remove w state f.value)).1.map Prod.snd)) |||
                state := (Nat.lor_assoc _ _ _).symm
      · rw [iter_names_aux, if_neg hs, if_neg hc]
        exact ih state hstate

theorem iter_aux_sub {w src : Nat} : ∀ (l : List Flag) (state : Nat),
    ∀ p ∈ (iter_names_aux w src l state).1, p.2 &&& src = p.2 := by
  intro l
  induction l with
  | nil => intro state p hp; cases hp
  | cons f l ih =>
    intro state p hp
    by_cases hs : state = 0
    · subst hs; rw [iter_aux_zero] at hp; cases hp
    · by_cases hc : contains src f.value = true
      · rw [iter_names_aux, if_neg hs, if_pos hc] at hp
        rcases List.mem_cons.mp hp with h | h
        · subst h
          have := contains_iff.mp hc
          rw [Nat.land_comm] at this
          exact this
        · exact ih _ p h
      · rw [iter_names_aux, if_neg hs, if_neg hc] at hp
        exact ih state p hp

/-! ### Claim theorems: iteration -/

theorem iter_foldl_or_eq (w : Nat) (table : List Flag) (x : Nat)
    (hx : x < 2 ^ w) :
    (iter w table x).foldl (· ||| ·) 0 = x := by
  have hor := iter_aux_or w x table x hx
  have hsubl :
      orList ((iter_names_aux w x table x).1.map Prod.snd) &&& x =
        orList ((iter_names_aux w x table x).1.map Prod.snd) := by
    apply orList_sub
    intro a ha
    obtain ⟨p, hp, rfl⟩ := List.mem_map.mp ha
    exact iter_aux_sub table x p hp
  have hox := lor_eq_right_of_sub hsubl
  rw [iter, iter_names, iter_remaining]
  by_cases hrem : is_empty (iter_names_aux w x table x).2 = true
  · rw [if_pos hrem, List.append_nil]
    have h0 : (iter_names_aux w x table x).2 = 0 := by
      simpa [is_empty] using hrem
    rw [h0, Nat.or_zero] at hor
    calc ((iter_names_aux w x table x).1.map Prod.snd).foldl (· ||| ·) 0
        = orList ((iter_names_aux w x table x).1.map Prod.snd) := rfl
      _ = x := by rw [hor, hox]
  · rw [if_neg hrem, List.foldl_append]
    calc ((iter_names_aux w x table x).1.map Prod.snd).foldl (· ||| ·) 0 |||
          (iter_names_aux w x table x).2
        = orList ((iter_names_aux w x table x).1.map Prod.snd) |||
          (iter_names_aux w x table x).2 := rfl
      _ = x := by rw [hor, hox]

/-- C1: for every flags value `x` below the storage width, including values
with unknown bits, OR-folding (from the empty value) the bit patterns yielded
by the canonical iterator `iter()` — the named matches followed by at most
one unnamed leftover item (src/iter.rs lines 34-55) — reconstructs `x`
exactly. -/
theorem iter_or_fold_reconstructs (w : Nat) (table : List Flag) (x : Nat)
    (hx : x < 2 ^ w) :
    (iter w table x).foldl (· ||| ·) 0 = x :=
  iter_foldl_or_eq w table x hx

theorem iter_or_fold_reconstructs_witness :
    (11 : Nat) < 2 ^ 8 ∧ (iter 8 tableABC 11).foldl (· ||| ·) 0 = 11 :=
  ⟨by decide, iter_or_fold_reconstructs 8 tableABC 11 (by decide)⟩

/-- C10: the empty flags value yields nothing from `iter()` and
`iter_names()` (the iterators short-circuit on an empty remaining state,
src/iter.rs lines 104-108), even when the table declares a zero-valued
entry, and formatting the empty value emits no flag name at all. -/
theorem empty_value_iterates_nothing (w : Nat) (table : List Flag) :
    iter_names w table 0 = [] ∧ iter w table 0 = [] ∧ to_writer table w 0 = [] := by
  have h0 := iter_aux_zero w 0 table
  refine ⟨?_, ?_, ?_⟩
  · rw [iter_names, h0]
  · rw [iter, iter_names, iter_remaining, h0]
    simp [is_empty]
  · rw [to_writer, iter_names, iter_remaining, h0]
    simp [List.intercalate]

theorem iter_aux_append (w src : Nat) : ∀ (l₁ l₂ : List Flag) (state : Nat),
    iter_names_aux w src (l₁ ++ l₂) state =
      ((iter_names_aux w src l₁ state).1 ++
          (iter_names_aux w src l₂ (iter_names_aux w src l₁ state).2).1,
        (iter_names_aux w src l₂ (iter_names_aux w src l₁ state).2).2) := by
  intro l₁
  induction l₁ with
  | nil => intro l₂ state; simp [iter_names_aux]
  | cons f l₁ ih =>
    intro l₂ state
    by_cases hs : state = 0
    · subst hs
      rw [iter_aux_zero, iter_aux_zero, iter_aux_zero]
      simp
    · by_cases hc : contains src f.value = true
      · rw [List.cons_append, iter_names_aux, if_neg hs, if_pos hc,
          iter_names_aux, if_neg hs, if_pos hc, ih]
        simp
      · rw [List.cons_append, iter_names_aux, if_neg hs, if_neg hc,
          iter_names_aux, if_neg hs, if_neg hc, ih]

/-- C3 (amended): over a `w`-bit flags type, the named-match iterator yields
an item for the table entry at index `i` exactly when the *original* source
value `x` contains all of the entry's bits **and** the remaining state after
the earlier entries is still non-empty (the iterator short-circuits once the
remainder hits `EMPTY`, src/iter.rs lines 104-108); items appear in table
declaration order, membership being tested against the original source, so
entries sharing the same bit pattern are each yielded provided the remainder
is non-empty when they are reached. -/
theorem iter_names_yield_characterization (w : Nat) (table : List Flag)
    (x i : Nat) (hi : i < table.length) :
    iter_names_aux w x (table.take (i + 1)) x =
      ((iter_names_aux w x (table.take i) x).1 ++
          (if x &&& (table.get ⟨i, hi⟩).value = (table.get ⟨i, hi⟩).value ∧
              (iter_names_aux w x (table.take i) x).2 ≠ 0
            then [((table.get ⟨i, hi⟩).name, (table.get ⟨i, hi⟩).value)]
            else []),
        if x &&& (table.get ⟨i, hi⟩).value = (table.get ⟨i, hi⟩).value ∧
            (iter_names_aux w x (table.take i) x).2 ≠ 0
          then remove w (iter_names_aux w x (table.take i) x).2 (table.get ⟨i, hi⟩).value
          else (iter_names_aux w x (table.take i) x).2) := by
  have htake : table.take (i + 1) = table.take i ++ [table.get ⟨i, hi⟩] := by
    rw [List.take_succ, List.getElem?_eq_getElem hi]
    rfl
  rw [htake, iter_aux_append]
  by_cases hs : (iter_names_aux w x (table.take i) x).2 = 0
  · rw [hs, iter_aux_zero]
    simp
  · by_cases hc : x &&& (table.get ⟨i, hi⟩).value = (table.get ⟨i, hi⟩).value
    · have hcond : x &&& (table.get ⟨i, hi⟩).value = (table.get ⟨i, hi⟩).value ∧
          (iter_names_aux w x (table.take i) x).2 ≠ 0 := ⟨hc, hs⟩
      rw [if_pos hcond, if_pos hcond, iter_names_aux, if_neg hs,
        if_pos (contains_iff.mpr hc)]
      rfl
    · have hcond : ¬(x &&& (table.get ⟨i, hi⟩).value = (table.get ⟨i, hi⟩).value ∧
          (iter_names_aux w x (table.take i) x).2 ≠ 0) := by
        intro h; exact hc h.1
      have hcb : ¬(contains x (table.get ⟨i, hi⟩).value = true) := by
        intro h; exact hc (contains_iff.mp h)
      rw [if_neg hcond, if_neg hcond, iter_names_aux, if_neg hs, if_neg hcb]
      rfl

theorem iter_names_yield_characterization_witness :
    iter_names_aux 8 3 (tableABC.take 1) 3 =
      ((iter_names_aux 8 3 (tableABC.take 0) 3).1 ++
          (if (3 : Nat) &&& (tableABC.get ⟨0, by decide⟩).value =
                (tableABC.get ⟨0, by decide⟩).value ∧
              (iter_names_aux 8 3 (tableABC.take 0) 3).2 ≠ 0
            then [((tableABC.get ⟨0, by decide⟩).name,
                (tableABC.get ⟨0, by decide⟩).value)]
            else []),
        if (3 : Nat) &&& (tableABC.get ⟨0, by decide⟩).value =
              (tableABC.get ⟨0, by decide⟩).value ∧
            (iter_names_aux 8 3 (tableABC.take 0) 3).2 ≠ 0
          then remove 8 (iter_names_aux 8 3 (tableABC.take 0) 3).2
              (tableABC.get ⟨0, by decide⟩).value
          else (iter_names_aux 8 3 (tableABC.take 0) 3).2) :=
  iter_names_yield_characterization 8 tableABC 3 0 (by decide)

/-- C3 counterexample: over the table `{C = 4, CC = 4}` of two aliased
entries, the value whose bits are exactly that shared pattern contains the
bits of the second alias, yet the named-match iterator yields only the first
alias — the iterator stops once its remaining state is empty, refuting
"yields an item for `e` exactly when `x`'s original bits contain all of `e`'s
bits" and "every one of those entries is yielded". -/
theorem iter_names_alias_skipped :
    (4 : Nat) &&& 4 = 4 ∧
      iter_names 8 tableAlias 4 = [(['C'], 4)] ∧
      ¬((['C', 'C'], 4) ∈ iter_names 8 tableAlias 4) := by
  decide

/-! ### Claim theorems: text codec -/

theorem from_str_go_first_error (table : List Flag) (sp : StorageSpec) :
    ∀ (ts : List (List Char)) (acc : Nat) (e : ParseError),
      from_str_go table sp acc ts = .error e →
      ∃ i, ∃ h : i < ts.length,
        parse_token table sp (ts.get ⟨i, h⟩) = .error e ∧
        ∀ t ∈ ts.take i, (parse_token table sp t).isOk = true := by
  intro ts
  induction ts with
  | nil => intro acc e h; simp [from_str_go] at h
  | cons t ts ih =>
    intro acc e h
    rw [from_str_go] at h
    cases hp : parse_token table sp t with
    | error e₂ =>
      rw [hp] at h
      injection h with h
      subst h
      refine ⟨0, by simp, hp, ?_⟩
      simp
    | ok v =>
      rw [hp] at h
      obtain ⟨i, hlen, hpt, hall⟩ := ih (acc ||| v) e h
      refine ⟨i + 1, by simpa using Nat.succ_lt_succ hlen, hpt, ?_⟩
      intro u hu
      rw [List.take_succ_cons] at hu
      rcases List.mem_cons.mp hu with h₂ | h₂
      · subst h₂; rw [hp]; rfl
      · exact hall u h₂

/-- C9: parsing the empty or all-whitespace input returns `Ok(empty())`
(src/parser.rs lines 47-49); an empty `|`-delimited token, as in `A||B`,
yields the `EmptyFlag` error (lines 55-57); and every parse error is
terminal for the call — the error returned is the one produced by the first
failing token in left-to-right order, every earlier token having parsed
successfully, and no partial result is produced. -/
theorem from_str_empty_and_first_error :
    (∀ (table : List Flag) (sp : StorageSpec) (input : List Char),
        trim input = [] → from_str table sp input = .ok 0) ∧
      from_str tableABC u8spec ['A', '|', '|', 'B'] = .error .emptyFlag ∧
      (∀ (table : List Flag) (sp : StorageSpec) (input : List Char)
          (e : ParseError),
        from_str table sp input = .error e →
        ∃ i, ∃ h : i < (splitOnPipe (trim input)).length,
          parse_token table sp ((splitOnPipe (trim input)).get ⟨i, h⟩) = .error e ∧
          ∀ t ∈ (splitOnPipe (trim input)).take i,
            (parse_token table sp t).isOk = true) := by
  refine ⟨?_, by decide, ?_⟩
  · intro table sp input h
    rw [from_str, if_pos h]
  · intro table sp input e herr
    by_cases hin : trim input = []
    · rw [from_str, if_pos hin] at herr
      cases herr
    · rw [from_str, if_neg hin] at herr
      exact from_str_go_first_error table sp _ 0 e herr

theorem from_str_empty_and_first_error_witness :
    from_str tableABC u8spec [' ', ' '] = .ok 0 ∧
      (∃ i, ∃ h : i < (splitOnPipe (trim ['A', '|', '|', 'B'])).length,
        parse_token tableABC u8spec
            ((splitOnPipe (trim ['A', '|', '|', 'B'])).get ⟨i, h⟩) =
          .error .emptyFlag ∧
        ∀ t ∈ (splitOnPipe (trim ['A', '|', '|', 'B'])).take i,
          (parse_token tableABC u8spec t).isOk = true) :=
  ⟨from_str_empty_and_first_error.1 tableABC u8spec [' ', ' '] (by decide),
    from_str_empty_and_first_error.2.2 tableABC u8spec ['A', '|', '|', 'B']
      .emptyFlag (by decide)⟩

/-- C2 evaluated at a failing input: over `i8` storage with the single flag
`A = 1`, the value `from_bits_retain(-128)` (bit pattern `0x80`) is formatted
by `to_writer` as `0x80` (Rust's `LowerHex` prints the two's-complement
pattern), but `from_str`'s hex branch goes through `i8::from_str_radix`,
which rejects `0x80 > i8::MAX`, so parsing the formatter's output returns
`Err(InvalidHexFlag)` instead of `Ok` — while the identical bit pattern over
unsigned `u8` storage round-trips. -/
theorem signed_hex_roundtrip_fails :
    to_writer tableA 8 128 = ['0', 'x', '8', '0'] ∧
      from_str tableA i8spec (to_writer tableA 8 128) =
        .error (.invalidHexFlag ['8', '0']) ∧
      from_str tableA u8spec (to_writer tableA 8 128) = .ok 128 := by
  decide

/-! ### Round trip of the text codec over unsigned storage

The remaining development proves that `parse(format(x)) == x` does hold over
every unsigned storage type, for every table whose names are identifier-like
and distinct — locating the failure witnessed by the C2 theorem precisely in
the signed `from_str_radix` range. -/

theorem intercalate_single (sep p : List Char) :
    List.intercalate sep [p] = p := by
  simp [List.intercalate]

theorem intercalate_cons₂ (sep p q : List Char) (t : List (List Char)) :
    List.intercalate sep (p :: q :: t) = p ++ sep ++ List.intercalate sep (q :: t) := by
  simp [List.intercalate, List.intersperse]

theorem split_ne_nil : ∀ s : List Char, splitOnPipe s ≠ [] := by
  intro s
  induction s with
  | nil => simp [splitOnPipe]
  | cons c r ih =>
    rw [splitOnPipe]
    by_cases hc : c = '|'
    · simp [hc]
    · rw [if_neg hc]
      cases h : splitOnPipe r with
      | nil => simp
      | cons t ts => simp

theorem split_no_pipe : ∀ {p : List Char}, (∀ c ∈ p, c ≠ '|') →
    splitOnPipe p = [p] := by
  intro p
  induction p with
  | nil => intro _; rfl
  | cons c r ih =>
    intro h
    rw [splitOnPipe, if_neg (h c (by simp)), ih fun d hd => h d (by simp [hd])]

theorem split_append_pipe : ∀ {p : List Char}, (∀ c ∈ p, c ≠ '|') →
    ∀ s, splitOnPipe (p ++ '|' :: s) = p :: splitOnPipe s := by
  intro p
  induction p with
  | nil => intro _ s; rw [List.nil_append, splitOnPipe, if_pos rfl]
  | cons c r ih =>
    intro h s
    rw [List.cons_append, splitOnPipe, if_neg (h c (by simp)),
      ih (fun d hd => h d (by simp [hd])) s]

theorem dropWhile_eq_self_of_head {p : List Char}
    (h : ∀ c ∈ p.take 1, is_whitespace c = false) :
    p.dropWhile is_whitespace = p := by
  cases p with
  | nil => rfl
  | cons c r => rw [List.dropWhile_cons, if_neg (by simp [h c (by simp)])]

theorem trim_eq_self {p : List Char}
    (h1 : ∀ c ∈ p.take 1, is_whitespace c = false)
    (h2 : ∀ c ∈ p.reverse.take 1, is_whitespace c = false) :
    trim p = p := by
  rw [trim, dropWhile_eq_self_of_head h1, dropWhile_eq_self_of_head h2,
    List.reverse_reverse]

theorem trim_cons_space (u : List Char) : trim (' ' :: u) = trim u := by
  rw [trim, trim, List.dropWhile_cons, if_pos (by decide)]

theorem dropWhile_append_all_ws : ∀ {a : List Char},
    (∀ c ∈ a, is_whitespace c = true) → ∀ s,
    List.dropWhile is_whitespace (a ++ s) = List.dropWhile is_whitespace s := by
  intro a
  induction a with
  | nil => intro _ s; rfl
  | cons c r ih =>
    intro h s
    rw [List.cons_append, List.dropWhile_cons, if_pos (h c (by simp)),
      ih (fun d hd => h d (by simp [hd])) s]

theorem trim_pad {p : List Char} (hp : valid_part p) {a b : List Char}
    (ha : ∀ c ∈ a, is_whitespace c = true)
    (hb : ∀ c ∈ b, is_whitespace c = true) :
    trim (a ++ (p ++ b)) = p := by
  obtain ⟨hne, hcs⟩ := hp
  rcases p with _ | ⟨c, r⟩
  · exact absurd rfl hne
  rw [trim, dropWhile_append_all_ws ha, List.cons_append, List.dropWhile_cons,
    if_neg (by simp [(hcs c (by simp)).1])]
  rw [show (c :: (r ++ b)) = (c :: r) ++ b by simp, List.reverse_append,
    dropWhile_append_all_ws (fun d hd => hb d (List.mem_reverse.mp hd))]
  have hrev : ∀ d ∈ (c :: r).reverse.take 1, is_whitespace d = false := by
    intro d hd
    exact (hcs d (List.mem_reverse.mp (List.take_subset 1 _ hd))).1
  rw [dropWhile_eq_self_of_head hrev, List.reverse_reverse]

theorem valid_part_trim {p : List Char} (hp : valid_part p) : trim p = p := by
  have := trim_pad hp (a := []) (b := []) (by simp) (by simp)
  simpa using this

theorem intercalate_ne_nil : ∀ (parts : List (List Char)),
    (∀ p ∈ parts, valid_part p) → parts ≠ [] →
    List.intercalate [' ', '|', ' '] parts ≠ [] := by
  intro parts h hne
  match parts with
  | [p] =>
    rw [intercalate_single]
    exact (h p (by simp)).1
  | p :: q :: t =>
    rw [intercalate_cons₂]
    have hp := (h p (by simp)).1
    cases p with
    | nil => exact absurd rfl hp
    | cons c r => simp

theorem intercalate_head_no_ws : ∀ (parts : List (List Char)),
    (∀ p ∈ parts, valid_part p) → parts ≠ [] →
    ∀ c ∈ (List.intercalate [' ', '|', ' '] parts).take 1,
      is_whitespace c = false := by
  intro parts h hne c hc
  match parts with
  | [p] =>
    rw [intercalate_single] at hc
    exact ((h p (by simp)).2 c (List.take_subset 1 p hc)).1
  | p :: q :: t =>
    rw [intercalate_cons₂, List.append_assoc] at hc
    have hp := h p (by simp)
    have hlen : 1 ≤ p.length := by
      cases p with
      | nil => exact absurd rfl hp.1
      | cons d r => simp
    rw [List.take_append_of_le_length hlen] at hc
    exact (hp.2 c (List.take_subset 1 p hc)).1

theorem intercalate_last_no_ws : ∀ (parts : List (List Char)),
    (∀ p ∈ parts, valid_part p) → parts ≠ [] →
    ∀ c ∈ (List.intercalate [' ', '|', ' '] parts).reverse.take 1,
      is_whitespace c = false := by
  intro parts
  induction parts with
  | nil => intro _ hne; exact absurd rfl hne
  | cons p rest ih =>
    intro h _ c hc
    cases rest with
    | nil =>
      rw [intercalate_single] at hc
      exact ((h p (by simp)).2 c
        (List.mem_reverse.mp (List.take_subset 1 _ hc))).1
    | cons q t =>
      rw [intercalate_cons₂, List.reverse_append] at hc
      have hJ : List.intercalate [' ', '|', ' '] (q :: t) ≠ [] :=
        intercalate_ne_nil (q :: t) (fun r hr => h r (by simp [hr])) (by simp)
      have hlen : 1 ≤ (List.intercalate [' ', '|', ' '] (q :: t)).reverse.length := by
        rw [List.length_reverse]
        cases hJl : List.intercalate [' ', '|', ' '] (q :: t) with
        | nil => exact absurd hJl hJ
        | cons d r => simp
      rw [List.take_append_of_le_length hlen] at hc
      exact ih (fun r hr => h r (by simp [hr])) (by simp) c hc

theorem trim_intercalate (parts : List (List Char))
    (h : ∀ p ∈ parts, valid_part p) (hne : parts ≠ []) :
    trim (List.intercalate [' ', '|', ' '] parts) =
      List.intercalate [' ', '|', ' '] parts :=
  trim_eq_self (intercalate_head_no_ws parts h hne)
    (intercalate_last_no_ws parts h hne)

theorem map_trim_split : ∀ (parts : List (List Char)),
    (∀ p ∈ parts, valid_part p) → parts ≠ [] →
    (splitOnPipe (List.intercalate [' ', '|', ' '] parts)).map trim = parts := by
  intro parts
  induction parts with
  | nil => intro _ hne; exact absurd rfl hne
  | cons p rest ih =>
    intro h _
    cases rest with
    | nil =>
      rw [intercalate_single,
        split_no_pipe (fun c hc => ((h p (by simp)).2 c hc).2)]
      simp [valid_part_trim (h p (by simp))]
    | cons q t =>
      rw [intercalate_cons₂]
      have hshape : p ++ [' ', '|', ' '] ++ List.intercalate [' ', '|', ' '] (q :: t) =
          (p ++ [' ']) ++ '|' :: (' ' :: List.intercalate [' ', '|', ' '] (q :: t)) := by
        simp
      rw [hshape, split_append_pipe ?hpipe]
      case hpipe =>
        intro c hc
        rcases List.mem_append.mp hc with h₂ | h₂
        · exact ((h p (by simp)).2 c h₂).2
        · simp at h₂; subst h₂; decide
      rw [splitOnPipe, if_neg (by decide)]
      cases hsp : splitOnPipe (List.intercalate [' ', '|', ' '] (q :: t)) with
      | nil => exact absurd hsp (split_ne_nil _)
      | cons t₁ ts =>
        have hIH := ih (fun r hr => h r (by simp [hr])) (by simp)
        rw [hsp] at hIH
        simp only [List.map_cons] at hIH ⊢
        rw [trim_cons_space]
        have hpt : trim (p ++ [' ']) = p := by
          have := trim_pad (h p (by simp)) (a := []) (b := [' '])
            (by simp) (by intro c hc; simp at hc; subst hc; decide)
          simpa using this
        rw [hpt]
        exact congrArg (p :: ·) hIH

theorem intercalate_append_single : ∀ (A : List (List Char)) (z : List Char),
    List.intercalate [' ', '|', ' '] (A ++ [z]) =
      List.intercalate [' ', '|', ' '] A ++
        (if A = [] then [] else [' ', '|', ' ']) ++ z := by
  intro A
  induction A with
  | nil => intro z; simp [intercalate_single, List.intercalate]
  | cons a A ih =>
    intro z
    cases A with
    | nil =>
      rw [List.cons_append, List.nil_append, intercalate_cons₂,
        intercalate_single, intercalate_single, if_neg (by simp)]
    | cons b B =>
      simp only [List.cons_append]
      rw [intercalate_cons₂ [' ', '|', ' '] a b (B ++ [z])]
      have hih := ih z
      simp only [List.cons_append] at hih
      rw [hih, intercalate_cons₂ [' ', '|', ' '] a b B,
        if_neg (show ¬(b :: B = []) by simp),
        if_neg (show ¬(a :: b :: B = []) by simp)]
      simp

theorem hexDigit_to_digit {d : Nat} (hd : d < 16) :
    to_digit16 (hexDigitChar d) = some d := by
  interval_cases d <;> decide

theorem hexDigitChar_valid {d : Nat} (hd : d < 16) :
    is_whitespace (hexDigitChar d) = false ∧ hexDigitChar d ≠ '|' ∧
      hexDigitChar d ≠ '+' ∧ hexDigitChar d ≠ '-' := by
  interval_cases d <;> refine ⟨by decide, by decide, by decide, by decide⟩

theorem hexCharsAux_ne_nil {fuel : Nat} (hf : fuel ≠ 0) (n : Nat) :
    hexCharsAux fuel n ≠ [] := by
  cases fuel with
  | zero => exact absurd rfl hf
  | succ g =>
    rw [hexCharsAux]
    by_cases h : n < 16
    · simp [h]
    · simp [h]

theorem hexCharsAux_mem : ∀ (fuel : Nat) {n : Nat} {c : Char},
    c ∈ hexCharsAux fuel n → ∃ d, d < 16 ∧ c = hexDigitChar d := by
  intro fuel
  induction fuel with
  | zero => intro n c hc; cases hc
  | succ fuel ih =>
    intro n c hc
    rw [hexCharsAux] at hc
    by_cases h : n < 16
    · rw [if_pos h] at hc
      simp at hc
      exact ⟨n, h, hc⟩
    · rw [if_neg h] at hc
      rcases List.mem_append.mp hc with h₂ | h₂
      · exact ih h₂
      · simp at h₂
        exact ⟨n % 16, Nat.mod_lt n (by norm_num), h₂⟩

theorem hexChars_mem {n : Nat} {c : Char} (hc : c ∈ hexChars n) :
    ∃ d, d < 16 ∧ c = hexDigitChar d :=
  hexCharsAux_mem (n + 1) hc

theorem hexChars_head (n : Nat) :
    ∃ d rest, d < 16 ∧ hexChars n = hexDigitChar d :: rest := by
  rw [hexChars, hexCharsAux]
  by_cases h : n < 16
  · rw [if_pos h]
    exact ⟨n, [], h, rfl⟩
  · rw [if_neg h]
    cases hA : hexCharsAux n (n / 16) with
    | nil => exact absurd hA (hexCharsAux_ne_nil (by omega) (n / 16))
    | cons c r =>
      have hcmem : c ∈ hexCharsAux n (n / 16) := by rw [hA]; simp
      obtain ⟨d, hd, hcd⟩ := hexCharsAux_mem n hcmem
      exact ⟨d, r ++ [hexDigitChar (n % 16)], hd, by rw [hcd]; simp⟩

theorem hexFormat_valid_part (n : Nat) : valid_part (hexFormat n) := by
  refine ⟨by simp [hexFormat], ?_⟩
  intro c hc
  rw [hexFormat] at hc
  simp only [List.mem_cons] at hc
  rcases hc with rfl | rfl | hc
  · exact ⟨by decide, by decide⟩
  · exact ⟨by decide, by decide⟩
  · obtain ⟨d, hd, rfl⟩ := hexChars_mem hc
    exact ⟨(hexDigitChar_valid hd).1, (hexDigitChar_valid hd).2.1⟩

theorem hexVal_append : ∀ (l₁ l₂ : List Char) (acc : Nat),
    hexVal (l₁ ++ l₂) acc =
      (match hexVal l₁ acc with
       | none => none
       | some v => hexVal l₂ v) := by
  intro l₁
  induction l₁ with
  | nil => intro l₂ acc; rfl
  | cons c r ih =>
    intro l₂ acc
    rw [List.cons_append]
    cases hcd : to_digit16 c with
    | none => simp [hexVal, hcd]
    | some d =>
      simp only [hexVal, hcd, Option.some_bind]
      exact ih l₂ (acc * 16 + d)

theorem hexCharsAux_val : ∀ (fuel : Nat) {n : Nat} (acc : Nat),
    n < 16 ^ fuel →
    hexVal (hexCharsAux fuel n) acc =
      some (acc * 16 ^ (hexCharsAux fuel n).length + n) := by
  intro fuel
  induction fuel with
  | zero =>
    intro n acc hn
    have : n = 0 := by simpa using hn
    subst this
    simp [hexCharsAux, hexVal]
  | succ fuel ih =>
    intro n acc hn
    rw [hexCharsAux]
    by_cases h : n < 16
    · rw [if_pos h]
      simp only [hexVal, hexDigit_to_digit h, Option.some_bind]
      simp
    · rw [if_neg h]
      have hdiv : n / 16 < 16 ^ fuel := by
        rw [Nat.div_lt_iff_lt_mul (by norm_num)]
        rw [pow_succ] at hn
        exact hn
      rw [hexVal_append, ih acc hdiv]
      simp only [hexVal, hexDigit_to_digit (Nat.mod_lt n (by norm_num)),
        Option.some_bind]
      have harith :
          (acc * 16 ^ (hexCharsAux fuel (n / 16)).length + n / 16) * 16 + n % 16 =
            acc * 16 ^ ((hexCharsAux fuel (n / 16)).length + 1) + n := by
        have hdm := Nat.div_add_mod n 16
        rw [pow_succ]
        calc (acc * 16 ^ (hexCharsAux fuel (n / 16)).length + n / 16) * 16 + n % 16
            = acc * (16 ^ (hexCharsAux fuel (n / 16)).length * 16) +
                (16 * (n / 16) + n % 16) := by ring
          _ = acc * (16 ^ (hexCharsAux fuel (n / 16)).length * 16) + n := by rw [hdm]
      rw [harith]
      simp

theorem hexVal_hexChars (n : Nat) : hexVal (hexChars n) 0 = some n := by
  have hbound : n < 16 ^ (n + 1) := by
    calc n < 2 ^ n := Nat.lt_two_pow n
      _ ≤ 16 ^ n := Nat.pow_le_pow_left (by norm_num) n
      _ ≤ 16 ^ (n + 1) := Nat.pow_le_pow_right (by norm_num) (by omega)
  rw [hexChars, hexCharsAux_val (n + 1) 0 hbound]
  simp

theorem from_str_radix16_eq_pos (sp : StorageSpec) {c : Char} (r : List Char)
    (hplus : c ≠ '+') (hminus : c ≠ '-') :
    from_str_radix16 sp (c :: r) = radix_parse_pos sp (c :: r) := by
  rw [from_str_radix16.eq_def]
  split
  · rename_i heq; cases heq
  · rename_i heq
    injection heq with h1 _
    exact absurd h1 hplus
  · rename_i heq
    injection heq with h1 _
    exact absurd h1 hminus
  · rfl

theorem from_str_radix16_hexChars {w n : Nat} (hn : n < 2 ^ w) :
    from_str_radix16 ⟨w, false⟩ (hexChars n) = some n := by
  obtain ⟨d, rest, hd, hshape⟩ := hexChars_head n
  have hv := hexDigitChar_valid hd
  rw [hshape, from_str_radix16_eq_pos _ rest hv.2.2.1 hv.2.2.2, ← hshape,
    radix_parse_pos, if_neg (by rw [hshape]; simp), hexVal_hexChars n]
  simp only [Option.some_bind]
  rw [if_pos]
  have : radix_pos_max ⟨w, false⟩ = 2 ^ w - 1 := by simp [radix_pos_max]
  rw [this]
  have hpos : 0 < 2 ^ w := Nat.pos_pow_of_pos w (by norm_num)
  omega

theorem from_name_of_mem_nodup : ∀ {table : List Flag} {f : Flag},
    f ∈ table → (table.map Flag.name).Nodup →
    from_name table f.name = some f.value := by
  intro table
  induction table with
  | nil => intro f hf _; cases hf
  | cons g rest ih =>
    intro f hf hnd
    rw [List.map_cons, List.nodup_cons] at hnd
    rcases List.mem_cons.mp hf with rfl | hf₂
    · rw [from_name, if_pos rfl]
    · have hne : g.name ≠ f.name := by
        intro h
        exact hnd.1 (h ▸ List.mem_map_of_mem Flag.name hf₂)
      rw [from_name, if_neg hne]
      exact ih hf₂ hnd.2

theorem iter_aux_mem_entry {w src : Nat} : ∀ (l : List Flag) (state : Nat),
    ∀ p ∈ (iter_names_aux w src l state).1, ∃ f ∈ l, p = (f.name, f.value) := by
  intro l
  induction l with
  | nil => intro state p hp; cases hp
  | cons f l ih =>
    intro state p hp
    by_cases hs : state = 0
    · subst hs; rw [iter_aux_zero] at hp; cases hp
    · by_cases hc : contains src f.value = true
      · rw [iter_names_aux, if_neg hs, if_pos hc] at hp
        rcases List.mem_cons.mp hp with rfl | hp₂
        · exact ⟨f, by simp⟩
        · obtain ⟨g, hg, hpg⟩ := ih _ p hp₂
          exact ⟨g, by simp [hg], hpg⟩
      · rw [iter_names_aux, if_neg hs, if_neg hc] at hp
        obtain ⟨g, hg, hpg⟩ := ih state p hp
        exact ⟨g, by simp [hg], hpg⟩

theorem iter_aux_final_le {w src : Nat} : ∀ (l : List Flag) (state : Nat),
    (iter_names_aux w src l state).2 ≤ state := by
  intro l
  induction l with
  | nil => intro state; exact le_refl state
  | cons f l ih =>
    intro state
    by_cases hs : state = 0
    · subst hs; rw [iter_aux_zero]
    · by_cases hc : contains src f.value = true
      · rw [iter_names_aux, if_neg hs, if_pos hc]
        exact le_trans (ih (remove w state f.value)) (remove_le w state f.value)
      · rw [iter_names_aux, if_neg hs, if_neg hc]
        exact ih state

theorem parse_token_name {table : List Flag} (sp : StorageSpec)
    {t n : List Char} {v : Nat}
    (ht : trim t = n) (hvp : valid_part n) (h0x : n.take 2 ≠ ['0', 'x'])
    (hfn : from_name table n = some v) :
    parse_token table sp t = .ok v := by
  simp only [parse_token]
  rw [ht, if_neg hvp.1]
  split
  · simp at h0x
  · rw [hfn]

theorem parse_token_hex {table : List Flag} {w : Nat} {t : List Char} {n : Nat}
    (ht : trim t = hexFormat n) (hn : n < 2 ^ w) :
    parse_token table ⟨w, false⟩ t = .ok n := by
  simp only [parse_token]
  rw [ht, if_neg (by simp [hexFormat]), hexFormat]
  split
  · rename_i digits heq
    injection heq with _ heq
    injection heq with _ heq
    rw [← heq, from_str_radix16_hexChars hn]
  · rename_i hno
    exact absurd rfl (hno (hexChars n))

theorem forall₂_map_items {P : List Char → Nat → Prop} :
    ∀ (items : List (List Char × Nat)), (∀ p ∈ items, P p.1 p.2) →
    List.Forall₂ P (items.map Prod.fst) (items.map Prod.snd) := by
  intro items
  induction items with
  | nil => intro _; exact List.Forall₂.nil
  | cons p items ih =>
    intro h
    exact List.Forall₂.cons (h p (by simp)) (ih fun q hq => h q (by simp [hq]))

theorem forall₂_append_parse {R : List Char → Nat → Prop} :
    ∀ {l₁ l₃ : List (List Char)} {l₂ l₄ : List Nat},
    List.Forall₂ R l₁ l₂ → List.Forall₂ R l₃ l₄ →
    List.Forall₂ R (l₁ ++ l₃) (l₂ ++ l₄) := by
  intro l₁ l₃ l₂ l₄ h₁ h₂
  induction h₁ with
  | nil => exact h₂
  | cons hR _ ih => exact List.Forall₂.cons hR ih

theorem forall₂_transport {table : List Flag} {sp : StorageSpec} :
    ∀ {toks ps : List (List Char)} {vs : List Nat},
    toks.map trim = ps →
    List.Forall₂ (fun p v => ∀ t, trim t = p → parse_token table sp t = .ok v) ps vs →
    List.Forall₂ (fun t v => parse_token table sp t = .ok v) toks vs := by
  intro toks
  induction toks with
  | nil =>
    intro ps vs hm h
    rw [List.map_nil] at hm
    subst hm
    cases h
    exact List.Forall₂.nil
  | cons t toks ih =>
    intro ps vs hm h
    rw [List.map_cons] at hm
    subst hm
    cases h with
    | cons hR htail =>
      exact List.Forall₂.cons (hR t rfl) (ih rfl htail)

theorem from_str_go_ok {table : List Flag} {sp : StorageSpec} :
    ∀ {ts : List (List Char)} {vs : List Nat},
    List.Forall₂ (fun t v => parse_token table sp t = .ok v) ts vs →
    ∀ acc, from_str_go table sp acc ts = .ok (vs.foldl (· ||| ·) acc) := by
  intro ts vs h
  induction h with
  | nil => intro acc; rfl
  | cons hR _ ih =>
    intro acc
    rw [from_str_go, hR]
    exact ih _

theorem from_str_of_parts {w : Nat} (table : List Flag)
    (parts : List (List Char)) (vs : List Nat)
    (hparts : ∀ p ∈ parts, valid_part p)
    (hF : List.Forall₂
      (fun p v => ∀ t, trim t = p → parse_token table ⟨w, false⟩ t = .ok v)
      parts vs)
    (hne : parts ≠ []) :
    from_str table ⟨w, false⟩ (List.intercalate [' ', '|', ' '] parts) =
      .ok (vs.foldl (· ||| ·) 0) := by
  have htr := trim_intercalate parts hparts hne
  have hJne := intercalate_ne_nil parts hparts hne
  rw [from_str, if_neg (by rw [htr]; exact hJne), htr]
  exact from_str_go_ok
    (forall₂_transport (map_trim_split parts hparts hne) hF) 0

/-- Over every *unsigned* storage type the text codec does round-trip:
for every value `x` (unknown bits included) of a flags type whose declared
names are identifier-like (non-empty, free of whitespace and `|`, not
starting with `0x`) and pairwise distinct, parsing the output of `to_writer`
returns exactly `x`.  Together with `signed_hex_roundtrip_fails`, this
locates the codec's round-trip defect precisely in the signed
`from_str_radix` range check. -/
theorem to_writer_from_str_roundtrip_unsigned (w : Nat) (table : List Flag)
    (x : Nat) (hx : x < 2 ^ w)
    (hnames : ∀ f ∈ table, valid_name f.name)
    (hnodup : (table.map Flag.name).Nodup) :
    from_str table ⟨w, false⟩ (to_writer table w x) = .ok x := by
  have hitems : ∀ p ∈ iter_names w table x, ∃ f ∈ table, p = (f.name, f.value) :=
    iter_aux_mem_entry table x
  have hrem_lt : iter_remaining w table x < 2 ^ w :=
    lt_of_le_of_lt (iter_aux_final_le table x) hx
  have hfold := iter_foldl_or_eq w table x hx
  by_cases hr : iter_remaining w table x = 0
  · -- no leftover item: the parts are exactly the yielded names
    by_cases hn : (iter_names w table x).map Prod.fst = []
    · -- nothing yielded at all: the formatter writes nothing and x is empty
      have hitems_nil : iter_names w table x = [] := by
        rcases hni : iter_names w table x with _ | ⟨p, ps⟩
        · rfl
        · rw [hni] at hn; simp at hn
      have hr2 : (iter_names_aux w x table x).2 = 0 := hr
      have hx0 : x = 0 := by
        rw [iter, hitems_nil, iter_remaining, hr2] at hfold
        simpa [is_empty] using hfold.symm
      rw [to_writer, hitems_nil, if_pos hr]
      simp only [List.map_nil, List.append_nil]
      rw [show List.intercalate [' ', '|', ' '] ([] : List (List Char)) = [] from
        by simp [List.intercalate]]
      rw [from_str, if_pos (show trim [] = [] from rfl), hx0]
    · -- names only, joined by " | "
      have hvs := forall₂_map_items (P := fun p v => ∀ t, trim t = p →
          parse_token table ⟨w, false⟩ t = .ok v) (iter_names w table x) ?items
      case items =>
        intro p hp
        obtain ⟨f, hf, rfl⟩ := hitems p hp
        intro t ht
        exact parse_token_name ⟨w, false⟩ ht ((hnames f hf).1)
          ((hnames f hf).2) (from_name_of_mem_nodup hf hnodup)
      have hparts : ∀ p ∈ (iter_names w table x).map Prod.fst, valid_part p := by
        intro p hp
        obtain ⟨q, hq, rfl⟩ := List.mem_map.mp hp
        obtain ⟨f, hf, rfl⟩ := hitems q hq
        exact (hnames f hf).1
      have hmain := from_str_of_parts table ((iter_names w table x).map Prod.fst)
        ((iter_names w table x).map Prod.snd) hparts hvs hn
      rw [to_writer, if_pos hr, List.append_nil]
      rw [hmain]
      congr 1
      have hr2 : (iter_names_aux w x table x).2 = 0 := hr
      rw [iter, iter_remaining, hr2] at hfold
      simpa [is_empty] using hfold
  · -- a leftover hex item follows the names
    have hvs := forall₂_map_items (P := fun p v => ∀ t, trim t = p →
        parse_token table ⟨w, false⟩ t = .ok v) (iter_names w table x) ?items
    case items =>
      intro p hp
      obtain ⟨f, hf, rfl⟩ := hitems p hp
      intro t ht
      exact parse_token_name ⟨w, false⟩ ht ((hnames f hf).1)
        ((hnames f hf).2) (from_name_of_mem_nodup hf hnodup)
    have hhex : List.Forall₂
        (fun p v => ∀ t, trim t = p → parse_token table ⟨w, false⟩ t = .ok v)
        [hexFormat (iter_remaining w table x)] [iter_remaining w table x] :=
      List.Forall₂.cons (fun t ht => parse_token_hex ht hrem_lt) List.Forall₂.nil
    have hparts : ∀ p ∈ (iter_names w table x).map Prod.fst ++
        [hexFormat (iter_remaining w table x)], valid_part p := by
      intro p hp
      rcases List.mem_append.mp hp with hp₁ | hp₂
      · obtain ⟨q, hq, rfl⟩ := List.mem_map.mp hp₁
        obtain ⟨f, hf, rfl⟩ := hitems q hq
        exact (hnames f hf).1
      · simp at hp₂
        subst hp₂
        exact hexFormat_valid_part _
    have hmain := from_str_of_parts table
      ((iter_names w table x).map Prod.fst ++ [hexFormat (iter_remaining w table x)])
      ((iter_names w table x).map Prod.snd ++ [iter_remaining w table x])
      hparts (forall₂_append_parse hvs hhex) (by simp)
    have hwriter : to_writer table w x =
        List.intercalate [' ', '|', ' ']
          ((iter_names w table x).map Prod.fst ++
            [hexFormat (iter_remaining w table x)]) := by
      rw [to_writer, if_neg hr, intercalate_append_single]
      by_cases hn : (iter_names w table x).map Prod.fst = [] <;>
        simp [hn, hexFormat, List.append_assoc]
    rw [hwriter, hmain]
    congr 1
    have hr2 : ¬((iter_names_aux w x table x).2 = 0) := hr
    have hie : is_empty (iter_names_aux w x table x).2 = false := by
      simp only [is_empty, beq_eq_false_iff_ne, ne_eq]
      exact hr2
    rw [iter, iter_remaining, hie] at hfold
    simpa using hfold

theorem to_writer_from_str_roundtrip_unsigned_example :
    from_str tableABC u8spec (to_writer tableABC 8 11) = .ok 11 :=
  to_writer_from_str_roundtrip_unsigned 8 tableABC 11 (by decide) (by decide)
    (by decide)

end Bitflags
